import Mathlib

/-!
Shallow embedding of the proxylab HTTP proxy (src/proxylab-handout/proxy.c):
the LRU object cache, the URI/Host resolver, the header filter and the
per-connection request handler, together with proofs of the specified
properties.

The cache is modelled as a list of entries in recency order (head =
most-recently-used, the list's last element = the `cache_tail` of the C code)
plus the running `cache_bytes` counter.  Payloads are byte lists; keys are
strings.  Machine `int` arithmetic never overflows in any state the claims
quantify over (all quantities stay far below 2^31), so `Int` is used for the
byte counter and `Nat` for sizes.
-/

namespace Proxy

/-- MAX_CACHE_SIZE from proxy.c line 4. -/
def MAX_CACHE_SIZE : Nat := 1049000

/-- MAX_OBJECT_SIZE from proxy.c line 5. -/
def MAX_OBJECT_SIZE : Nat := 102400

/-- One cache entry: `struct cache_entry` (key, data, size).  The recency
links `prev`/`next` are represented by the position in the cache's entry
list. -/
structure CacheEntry where
  key : String
  data : List Nat
  size : Nat
deriving DecidableEq, Repr

/-- The global cache state: `cache_head`/`cache_tail` linked list (head
first) and the `cache_bytes` counter. -/
structure Cache where
  entries : List CacheEntry
  cache_bytes : Int
deriving DecidableEq, Repr

/-- The initial cache state: no entries, zero bytes (proxy.c lines 20-22). -/
def emptyCache : Cache := ⟨[], 0⟩

/-- Sum of the `size` fields of a list of entries, as an integer. -/
def sumSizes (es : List CacheEntry) : Int :=
  (es.map (fun e => (e.size : Int))).sum

/-- Unlink the first entry whose key equals `key` (the scan-and-remove
performed inside `cache_insert`, using `cache_remove_entry`). -/
def removeFirstKey (key : String) : List CacheEntry → List CacheEntry
  | [] => []
  | e :: rest => if e.key = key then rest else e :: removeFirstKey key rest

/-- The eviction loop of `cache_evict_until_fit`, acting on the REVERSED
entry list (so the C code's `cache_tail` is the head here):
`while (cache_tail && (cache_bytes + needed) > MAX_CACHE_SIZE)
   cache_remove_entry(cache_tail);`
Returns the remaining reversed list and the updated byte counter. -/
def evictRev : List CacheEntry → Int → Nat → List CacheEntry × Int
  | [], bytes, _ => ([], bytes)
  | e :: rest, bytes, needed =>
    if bytes + (needed : Int) > (MAX_CACHE_SIZE : Int) then
      evictRev rest (bytes - (e.size : Int)) needed
    else (e :: rest, bytes)

/-- `cache_evict_until_fit(needed)` (proxy.c lines 76-81). -/
def cache_evict_until_fit (c : Cache) (needed : Nat) : Cache :=
  let p := evictRev c.entries.reverse c.cache_bytes needed
  ⟨p.1.reverse, p.2⟩

/-- `cache_get_copy` (proxy.c lines 83-106): scan from the head for the key;
on hit return a copy of the payload and move the entry to the front
(`cache_move_to_front`); on miss return nothing.  The result is the
returned payload (with its size) and the cache state after the call. -/
def cache_get_copy (c : Cache) (key : String) : Option (List Nat × Nat) × Cache :=
  match c.entries.find? (fun e => e.key = key) with
  | some e => (some (e.data, e.size), ⟨e :: removeFirstKey key c.entries, c.cache_bytes⟩)
  | none => (none, c)

/-- The scan-and-unlink loop at the top of `cache_insert` (proxy.c lines
119-126): remove an existing entry with the same key, if any. -/
def cache_remove_stale (c : Cache) (key : String) : Cache :=
  match c.entries.find? (fun e => e.key = key) with
  | some e => ⟨removeFirstKey key c.entries, c.cache_bytes - (e.size : Int)⟩
  | none => c

/-- `cache_insert(key, data, size)` (proxy.c lines 108-152): reject sizes
outside (0, MAX_OBJECT_SIZE]; unlink any existing entry with the same key;
evict from the tail until the payload fits; the `size > MAX_CACHE_SIZE`
early return; otherwise create the new entry at the head (`memcpy` copies
exactly `size` bytes of `data`) and add `size` to the counter. -/
def cache_insert (c : Cache) (key : String) (data : List Nat) (size : Nat) : Cache :=
  if size = 0 ∨ size > MAX_OBJECT_SIZE then c
  else
    let c2 := cache_evict_until_fit (cache_remove_stale c key) size
    if size > MAX_CACHE_SIZE then c2
    else ⟨⟨key, data.take size, size⟩ :: c2.entries, c2.cache_bytes + (size : Int)⟩

/-- A completed cache operation: lookup or insert (the two mutex-guarded
critical sections of proxy.c). -/
inductive CacheOp where
  | lookup (key : String)
  | insert (key : String) (data : List Nat) (size : Nat)
deriving DecidableEq, Repr

/-- Apply one cache operation to a cache state. -/
def applyOp (c : Cache) : CacheOp → Cache
  | .lookup k => (cache_get_copy c k).2
  | .insert k d s => cache_insert c k d s

/-- Run a sequence of cache operations starting from the empty cache. -/
def runOps (ops : List CacheOp) : Cache :=
  ops.foldl applyOp emptyCache

/-- The cache accounting invariant: the byte counter equals the sum of the
entry sizes and stays within the cache budget. -/
def CacheInv (c : Cache) : Prop :=
  c.cache_bytes = sumSizes c.entries ∧ c.cache_bytes ≤ (MAX_CACHE_SIZE : Int)

/-- No entry of `es` carries key `k`. -/
def NoKey (k : String) (es : List CacheEntry) : Prop :=
  ∀ e ∈ es, e.key ≠ k

instance (k : String) (es : List CacheEntry) : Decidable (NoKey k es) :=
  inferInstanceAs (Decidable (∀ e ∈ es, e.key ≠ k))

/-!
URI/Host resolver and header filter.  Strings coming off the wire are
ASCII (one byte per char), so C byte operations (`tolower`, `strchr`,
pointer arithmetic) map directly onto `List Char` operations.  The fixed
MAXLINE = 8192 buffers never truncate for inputs shorter than the buffer
(every parsed line was itself read into a MAXLINE buffer), so the
truncating `strncpy`/`memcpy` calls are modelled as plain copies.
-/

/-- C `isspace` in the default locale. -/
def isspace_c (c : Char) : Bool :=
  c = ' ' ∨ c = '\t' ∨ c = '\n' ∨ c = '\x0b' ∨ c = '\x0c' ∨ c = '\r'

/-- ASCII lower-casing of a character list (C `tolower` applied bytewise,
as done by `strncasecmp`/`strcasecmp`). -/
def lowerChars (cs : List Char) : List Char :=
  cs.map Char.toLower

/-- `starts_with_icase(s, prefix)` (proxy.c lines 154-158):
`strncasecmp(s, prefix, strlen(prefix)) == 0`. -/
def starts_with_icase (s p : String) : Bool :=
  (lowerChars p.toList).isPrefixOf (lowerChars s.toList)

/-- `strchr(s, c)`: split `s` at the FIRST occurrence of `c`, returning the
parts before and after it, or `none` when `c` does not occur. -/
def splitAtCharFirst (c : Char) : List Char → Option (List Char × List Char)
  | [] => none
  | a :: rest =>
    if a = c then some ([], rest)
    else
      match splitAtCharFirst c rest with
      | some (x, y) => some (a :: x, y)
      | none => none

/-- `parse_uri(uri, hostname, port, path)` (proxy.c lines 160-212) on
character lists: strip an optional case-insensitive `http://` scheme; a
leading `/` means an origin-relative target (hostname stays empty, port
stays `80`); otherwise split host[:port] from the path at the first `/`
(path defaults to `/`), then split hostname from port at the first `:`
(port defaults to `80`).  Returns (hostname, port, path). -/
def parse_uri_core (uri : List Char) : List Char × List Char × List Char :=
  let p := if (lowerChars (("http://").toList)).isPrefixOf (lowerChars uri)
    then uri.drop 7 else uri
  if p.head? = some '/' then ([], ("80").toList, p)
  else
    let hp :=
      match splitAtCharFirst '/' p with
      | some (hostport, rest) => (hostport, '/' :: rest)
      | none => (p, ("/").toList)
    match splitAtCharFirst ':' hp.1 with
    | some (h, pr) => (h, pr, hp.2)
    | none => (hp.1, ("80").toList, hp.2)

/-- `parse_uri` on strings. -/
def parse_uri (uri : String) : String × String × String :=
  let r := parse_uri_core uri.toList
  (r.1.asString, r.2.1.asString, r.2.2.asString)

/-- Drop trailing characters satisfying the C loop condition
`end[-1] == '\r' || end[-1] == '\n' || isspace(end[-1])`. -/
def trimTrailingSpace (cs : List Char) : List Char :=
  (cs.reverse.dropWhile isspace_c).reverse

/-- `normalize_host_from_header(host_hdr, hostname, port)` (proxy.c lines
253-295): given the captured Host header value and the current hostname
and port, return the updated (hostname, port).  Empty or all-blank values
leave both untouched; otherwise leading whitespace and trailing line
terminators are trimmed and the value is split at the first `:` into
hostname and port (no colon: only the hostname is replaced). -/
def normalize_host_from_header_core (host_hdr hostname port : List Char) :
    List Char × List Char :=
  if host_hdr = [] then (hostname, port)
  else
    let t := host_hdr.dropWhile isspace_c
    let t2 := t.dropWhile (fun c => c = ' ' ∨ c = '\t')
    if t2 = [] then (hostname, port)
    else
      let t3 := trimTrailingSpace t2
      match splitAtCharFirst ':' t3 with
      | some (h, pr) => (h, pr)
      | none => (t3, port)

/-- The resolver glue in `forward_request` (proxy.c lines 331-339):
parse the URI, and when the target did not yield a hostname, fall back to
the Host header value.  Returns (hostname, port, path). -/
def resolve_core (uri host_hdr : List Char) : List Char × List Char × List Char :=
  let r := parse_uri_core uri
  if r.1 = [] then
    let hp := normalize_host_from_header_core host_hdr r.1 r.2.1
    (hp.1, hp.2, r.2.2)
  else r

/-- The resolver on strings: request target plus Host header value to
(hostname, port, path). -/
def resolve (uri host_hdr : String) : String × String × String :=
  let r := resolve_core uri.toList host_hdr.toList
  (r.1.asString, r.2.1.asString, r.2.2.asString)

/-- `read_request_headers(client_rio, other_hdrs, other_sz, host_hdr,
host_sz)` (proxy.c lines 219-251): consume header lines up to the blank
`\r\n` terminator (or end of input); capture the value after a
case-insensitive `Host:` prefix; drop `User-Agent:`, `Connection:` and
`Proxy-Connection:` lines; append every other line to the forwarded block
when it still fits in the 32768-byte buffer.  The accumulators `other`
and `host` mirror the two output buffers. -/
def read_request_headers : List String → String → String → String × String
  | [], other, host => (other, host)
  | l :: rest, other, host =>
    if l = ("\r\n") then (other, host)
    else if starts_with_icase l ("Host:") then
      read_request_headers rest other (l.drop 5)
    else if starts_with_icase l ("User-Agent:") then
      read_request_headers rest other host
    else if starts_with_icase l ("Connection:") then
      read_request_headers rest other host
    else if starts_with_icase l ("Proxy-Connection:") then
      read_request_headers rest other host
    else if other.length + l.length + 1 < 32768 then
      read_request_headers rest (other ++ l) host
    else
      read_request_headers rest other host

/-- A header line the proxy filters out (one of the four dropped names,
matched case-insensitively by prefix). -/
def filtered_header (l : String) : Bool :=
  starts_with_icase l ("Host:") || starts_with_icase l ("User-Agent:") ||
    starts_with_icase l ("Connection:") || starts_with_icase l ("Proxy-Connection:")

/-- Sum of the lengths of a list of lines. -/
def headerLinesLen (lines : List String) : Nat :=
  (lines.map String.length).sum

/-- Spec-side: concatenation of a list of lines, in order ("all other
lines are forwarded unmodified, in original order"). -/
def joinLines : List String → String
  | [] => ""
  | l :: rest => l ++ joinLines rest

/-- Spec-side: the captured Host value — the value following the last
`Host:` line before the blank terminator ("the value following Host: is
captured and returned separately"). -/
def capture_host : List String → String → String
  | [], h => h
  | l :: rest, h =>
    if l = ("\r\n") then h
    else if starts_with_icase l ("Host:") then capture_host rest (l.drop 5)
    else capture_host rest h

/-- The whitespace-separated tokens of a line, as read by
`sscanf(buf, "%s %s %s", ...)`: maximal runs of non-whitespace
characters.  `sscanf` returns the number of such runs (capped at three
conversions), so it returns a value other than 3 exactly when there are
fewer than three runs. -/
def sscanf_tokens (s : String) : List String :=
  ((s.toList.splitOnP isspace_c).filter (fun t => t ≠ [])).map List.asString

/-- The response-relay loop of `forward_request` (proxy.c lines 376-396):
fold over the chunks returned by `Rio_readnb`, appending to the object
buffer while it still fits in MAX_OBJECT_SIZE, and marking the object
not-cacheable the first time it would overflow.  Returns (object bytes,
object size, cacheable flag). -/
def relay_accumulate : List (List Nat) → List Nat → Nat → Bool → List Nat × Nat × Bool
  | [], obj, objsize, cacheable => (obj, objsize, cacheable)
  | chunk :: rest, obj, objsize, cacheable =>
    if cacheable then
      if objsize + chunk.length ≤ MAX_OBJECT_SIZE then
        relay_accumulate rest (obj ++ chunk) (objsize + chunk.length) cacheable
      else relay_accumulate rest obj objsize false
    else relay_accumulate rest obj objsize cacheable

/-- Observable outcome of one `forward_request` invocation: the bytes
written back to the client, whether an upstream connection was
established, whether any cache critical section ran, and the final cache
state. -/
structure HandlerResult where
  clientBytes : List Nat
  upstreamOpened : Bool
  cacheAccessed : Bool
  cache : Cache
deriving DecidableEq, Repr

/-- `forward_request(clientfd)` (proxy.c lines 297-399).  The I/O layer is
abstracted by the inputs: the request line read from the client (`none`
models a read failure or EOF), the raw header lines, whether
`Open_clientfd` succeeds, and the response chunks the origin server
produces.  Early returns yield zero client bytes, no upstream connection
and an untouched cache. -/
def forward_request (cache : Cache) (requestLine : Option String)
    (headerLines : List String) (connectOk : Bool) (chunks : List (List Nat)) :
    HandlerResult :=
  match requestLine with
  | none => ⟨[], false, false, cache⟩
  | some line =>
    match sscanf_tokens line with
    | method :: uri :: _version :: _ =>
      if lowerChars method.toList ≠ lowerChars (("GET").toList) then
        ⟨[], false, false, cache⟩
      else
        let oh := read_request_headers headerLines ("") ("")
        let r := resolve_core uri.toList oh.2.toList
        if r.1 = [] then ⟨[], false, false, cache⟩
        else
          let key := (r.1 ++ ':' :: r.2.1 ++ r.2.2).asString
          match cache_get_copy cache key with
          | (some hit, cache2) => ⟨hit.1, false, true, cache2⟩
          | (none, cache2) =>
            if connectOk = false then ⟨[], false, true, cache2⟩
            else
              let acc := relay_accumulate chunks [] 0 true
              let cache3 :=
                if acc.2.2 = true ∧ acc.2.1 > 0 then
                  cache_insert cache2 key acc.1 acc.2.1
                else cache2
              ⟨chunks.flatten, true, true, cache3⟩
    | _ => ⟨[], false, false, cache⟩

theorem sumSizes_nil : sumSizes [] = 0 := rfl

theorem sumSizes_cons (e : CacheEntry) (es : List CacheEntry) :
    sumSizes (e :: es) = (e.size : Int) + sumSizes es := by
  simp [sumSizes]

theorem sumSizes_reverse (es : List CacheEntry) :
    sumSizes es.reverse = sumSizes es := by
  simp [sumSizes, List.sum_reverse]

theorem sumSizes_nonneg (es : List CacheEntry) : 0 ≤ sumSizes es := by
  induction es with
  | nil => simp [sumSizes_nil]
  | cons e rest ih =>
    rw [sumSizes_cons]
    positivity

/-- The eviction loop keeps the byte counter in sync with the entry sizes. -/
theorem evictRev_sum (es : List CacheEntry) (n : Nat) :
    ∀ b : Int, b = sumSizes es →
      (evictRev es b n).2 = sumSizes (evictRev es b n).1 := by
  induction es with
  | nil => intro b hb; simpa [evictRev, sumSizes_nil] using hb
  | cons e rest ih =>
    intro b hb
    rw [evictRev]
    by_cases hcond : b + (n : Int) > (MAX_CACHE_SIZE : Int)
    · simp only [hcond, if_pos]
      exact ih _ (by rw [hb, sumSizes_cons]; ring)
    · simp only [hcond, if_neg, not_false_iff]
      simpa using hb

/-- After the eviction loop, either the cache is empty or the payload fits. -/
theorem evictRev_fits (es : List CacheEntry) (n : Nat) (b : Int) :
    (evictRev es b n).1 = [] ∨ (evictRev es b n).2 + (n : Int) ≤ (MAX_CACHE_SIZE : Int) := by
  induction es generalizing b with
  | nil => left; rfl
  | cons e rest ih =>
    rw [evictRev]
    by_cases hcond : b + (n : Int) > (MAX_CACHE_SIZE : Int)
    · simp only [hcond, if_pos]
      exact ih _
    · simp only [hcond, if_neg, not_false_iff]
      right; omega

/-- Removing the first entry matching a key subtracts exactly that entry's
size from the size sum. -/
theorem removeFirstKey_sum (k : String) (es : List CacheEntry) (e : CacheEntry)
    (h : es.find? (fun x => x.key = k) = some e) :
    sumSizes (removeFirstKey k es) = sumSizes es - (e.size : Int) := by
  induction es with
  | nil => simp [List.find?] at h
  | cons a rest ih =>
    by_cases ha : a.key = k
    · rw [List.find?_cons_of_pos _ (by simpa using ha)] at h
      cases h
      rw [removeFirstKey, if_pos ha, sumSizes_cons]
      ring
    · rw [List.find?_cons_of_neg _ (by simpa using ha)] at h
      rw [removeFirstKey, if_neg ha, sumSizes_cons, sumSizes_cons, ih h]
      ring

/-- Removing the stale entry keeps the byte counter in sync. -/
theorem cache_remove_stale_sum (c : Cache) (k : String)
    (hsum : c.cache_bytes = sumSizes c.entries) :
    (cache_remove_stale c k).cache_bytes = sumSizes (cache_remove_stale c k).entries := by
  rw [cache_remove_stale]
  cases hfind : c.entries.find? (fun e => e.key = k) with
  | some e => simp only [hfind]; rw [removeFirstKey_sum k _ e hfind, hsum]
  | none => simp only [hfind]; exact hsum

/-- `cache_insert` preserves the accounting invariant. -/
theorem cache_insert_inv (c : Cache) (k : String) (d : List Nat) (s : Nat)
    (hc : CacheInv c) : CacheInv (cache_insert c k d s) := by
  obtain ⟨hsum, hle⟩ := hc
  rw [cache_insert]
  by_cases hsz : s = 0 ∨ s > MAX_OBJECT_SIZE
  · rw [if_pos hsz]; exact ⟨hsum, hle⟩
  · rw [if_neg hsz]
    push_neg at hsz
    obtain ⟨hs0, hsmax⟩ := hsz
    have hsmax2 : s ≤ MAX_CACHE_SIZE := by
      have : MAX_OBJECT_SIZE ≤ MAX_CACHE_SIZE := by decide
      omega
    rw [if_neg (by omega)]
    set c1 : Cache := cache_remove_stale c k with hc1
    have hsum1 : c1.cache_bytes = sumSizes c1.entries :=
      cache_remove_stale_sum c k hsum
    set c2 := cache_evict_until_fit c1 s with hc2
    have hsum2 : c2.cache_bytes = sumSizes c2.entries := by
      rw [hc2, cache_evict_until_fit]
      simp only
      rw [← sumSizes_reverse]
      simp only [List.reverse_reverse]
      exact evictRev_sum _ _ _ (by rw [hsum1, sumSizes_reverse])
    have hfit : c2.cache_bytes + (s : Int) ≤ (MAX_CACHE_SIZE : Int) := by
      rcases evictRev_fits c1.entries.reverse s c1.cache_bytes with hnil | hfits
      · have hz : c2.cache_bytes = 0 := by
          rw [hsum2, hc2, cache_evict_until_fit]
          simp only [hnil, List.reverse_nil, sumSizes_nil]
        rw [hz]
        exact_mod_cast by omega
      · exact hfits
    refine ⟨?_, hfit⟩
    rw [sumSizes_cons, hsum2]
    ring

/-- `cache_get_copy` preserves the accounting invariant. -/
theorem cache_get_copy_inv (c : Cache) (k : String)
    (hc : CacheInv c) : CacheInv (cache_get_copy c k).2 := by
  obtain ⟨hsum, hle⟩ := hc
  rw [cache_get_copy]
  cases hfind : c.entries.find? (fun e => e.key = k) with
  | some e =>
    simp only [hfind]
    refine ⟨?_, hle⟩
    rw [sumSizes_cons, removeFirstKey_sum k _ e hfind, hsum]
    ring
  | none => simp only [hfind]; exact ⟨hsum, hle⟩

/-- Every cache operation preserves the accounting invariant. -/
theorem applyOp_inv (c : Cache) (op : CacheOp) (hc : CacheInv c) :
    CacheInv (applyOp c op) := by
  cases op with
  | lookup k => exact cache_get_copy_inv c k hc
  | insert k d s => exact cache_insert_inv c k d s hc

/-- Folding any list of operations from an invariant state stays invariant. -/
theorem foldl_applyOp_inv (ops : List CacheOp) :
    ∀ c : Cache, CacheInv c → CacheInv (ops.foldl applyOp c) := by
  induction ops with
  | nil => intro c hc; exact hc
  | cons op rest ih =>
    intro c hc
    rw [List.foldl_cons]
    exact ih _ (applyOp_inv c op hc)

/-- C1: starting from the empty cache, after every sequence of completed
cache operations (lookups and inserts, in any order), the sum of the sizes
of all entries equals the running `cache_bytes` counter, and `cache_bytes`
never exceeds MAX_CACHE_SIZE (1,049,000). -/
theorem cache_accounting_invariant (ops : List CacheOp) :
    sumSizes (runOps ops).entries = (runOps ops).cache_bytes ∧
      (runOps ops).cache_bytes ≤ (MAX_CACHE_SIZE : Int) := by
  have h := foldl_applyOp_inv ops emptyCache ⟨rfl, by decide⟩
  exact ⟨h.1.symm, h.2⟩

/-- C5: inserting a payload of length zero, or longer than MAX_OBJECT_SIZE,
leaves the entire cache state (entries, order and byte counter) unchanged. -/
theorem cache_insert_no_op (c : Cache) (k : String) (d : List Nat)
    (h : d.length = 0 ∨ d.length > MAX_OBJECT_SIZE) :
    cache_insert c k d d.length = c := by
  rw [cache_insert, if_pos h]

/-- Witness for C5 at a concrete input: the empty payload is rejected and
the cache is untouched. -/
theorem cache_insert_no_op_witness :
    cache_insert ⟨[⟨("a"), [5], 1⟩], 1⟩ ("k") [] 0 = ⟨[⟨("a"), [5], 1⟩], 1⟩ :=
  cache_insert_no_op ⟨[⟨("a"), [5], 1⟩], 1⟩ ("k") [] (Or.inl rfl)

/-- An admitted insert (0 < size ≤ MAX_OBJECT_SIZE) always reaches the
entry-creation branch: the `size > MAX_CACHE_SIZE` early return is dead
because MAX_OBJECT_SIZE < MAX_CACHE_SIZE. -/
theorem cache_insert_eq_cons (c : Cache) (k : String) (d : List Nat) (s : Nat)
    (h0 : 0 < s) (hm : s ≤ MAX_OBJECT_SIZE) :
    cache_insert c k d s =
      ⟨⟨k, d.take s, s⟩ :: (cache_evict_until_fit (cache_remove_stale c k) s).entries,
        (cache_evict_until_fit (cache_remove_stale c k) s).cache_bytes + (s : Int)⟩ := by
  have hlt : MAX_OBJECT_SIZE < MAX_CACHE_SIZE := by decide
  rw [cache_insert, if_neg (by omega), if_neg (by omega)]

/-- C2: round-trip fidelity.  After inserting payload `p` (with
0 < len(p) ≤ MAX_OBJECT_SIZE) under key `k`, an immediate lookup of `k`
hits and the returned copy is exactly `p` with size len(p), in every
starting cache state. -/
theorem insert_then_lookup (c : Cache) (k : String) (p : List Nat)
    (h0 : 0 < p.length) (hm : p.length ≤ MAX_OBJECT_SIZE) :
    (cache_get_copy (cache_insert c k p p.length) k).1 = some (p, p.length) := by
  rw [cache_insert_eq_cons c k p p.length h0 hm, cache_get_copy]
  simp [List.find?_cons_of_pos]

/-- Witness for C2: inserting `[7]` under key `"k"` into the empty cache
and looking it up returns `[7]`. -/
theorem insert_then_lookup_witness :
    (cache_get_copy (cache_insert emptyCache ("k") [7] 1) ("k")).1 = some ([7], 1) :=
  insert_then_lookup emptyCache ("k") [7] (by decide) (by decide)

/-- C10: an admitted insert (0 < len(p) ≤ MAX_OBJECT_SIZE) always completes
by creating the new entry at the most-recently-used (head) position, for
every starting cache state; the abandon branch is dead because
MAX_OBJECT_SIZE < MAX_CACHE_SIZE. -/
theorem admitted_insert_succeeds (c : Cache) (k : String) (p : List Nat)
    (h0 : 0 < p.length) (hm : p.length ≤ MAX_OBJECT_SIZE) :
    (cache_insert c k p p.length).entries.head? = some ⟨k, p, p.length⟩ ∧
      MAX_OBJECT_SIZE < MAX_CACHE_SIZE := by
  rw [cache_insert_eq_cons c k p p.length h0 hm]
  exact ⟨by simp, by decide⟩

/-- Witness for C10: inserting `[1, 2]` under key `"w"` into a one-entry
cache places it at the head. -/
theorem admitted_insert_succeeds_witness :
    (cache_insert ⟨[⟨("a"), [5], 1⟩], 1⟩ ("w") [1, 2] 2).entries.head? =
        some ⟨("w"), [1, 2], 2⟩ ∧
      MAX_OBJECT_SIZE < MAX_CACHE_SIZE :=
  admitted_insert_succeeds ⟨[⟨("a"), [5], 1⟩], 1⟩ ("w") [1, 2] (by decide) (by decide)

/-- When the keys are pairwise distinct, removing the first entry with key
`k` leaves no entry with key `k`. -/
theorem removeFirstKey_noKey (k : String) (es : List CacheEntry)
    (hnd : (es.map CacheEntry.key).Nodup) : NoKey k (removeFirstKey k es) := by
  induction es with
  | nil => intro e he; simp [removeFirstKey] at he
  | cons a rest ih =>
    rw [List.map_cons, List.nodup_cons] at hnd
    obtain ⟨hnotin, hndrest⟩ := hnd
    by_cases ha : a.key = k
    · rw [removeFirstKey, if_pos ha]
      intro e he hek
      exact hnotin (by rw [ha, ← hek]; exact List.mem_map_of_mem _ he)
    · rw [removeFirstKey, if_neg ha]
      intro e he
      rcases List.mem_cons.mp he with rfl | hmem
      · exact ha
      · exact ih hndrest e hmem

/-- After the stale-entry removal step of `cache_insert`, no entry with the
inserted key remains (given distinct keys). -/
theorem cache_remove_stale_noKey (c : Cache) (k : String)
    (hnd : (c.entries.map CacheEntry.key).Nodup) :
    NoKey k (cache_remove_stale c k).entries := by
  rw [cache_remove_stale]
  cases hfind : c.entries.find? (fun e => e.key = k) with
  | some e => simp only [hfind]; exact removeFirstKey_noKey k c.entries hnd
  | none =>
    simp only [hfind]
    intro e he hek
    have := List.find?_eq_none.mp hfind e he
    simp [hek] at this

/-- Eviction only removes entries: every survivor was already present. -/
theorem evictRev_subset (es : List CacheEntry) (n : Nat) :
    ∀ (b : Int) (e : CacheEntry), e ∈ (evictRev es b n).1 → e ∈ es := by
  induction es with
  | nil => intro b e he; simp [evictRev] at he
  | cons a rest ih =>
    intro b e he
    rw [evictRev] at he
    by_cases hcond : b + (n : Int) > (MAX_CACHE_SIZE : Int)
    · rw [if_pos hcond] at he
      exact List.mem_cons_of_mem a (ih _ e he)
    · rw [if_neg hcond] at he
      exact he

/-- The eviction loop preserves absence of a key. -/
theorem cache_evict_until_fit_noKey (c : Cache) (n : Nat) (k : String)
    (h : NoKey k c.entries) : NoKey k (cache_evict_until_fit c n).entries := by
  intro e he
  rw [cache_evict_until_fit] at he
  simp only [List.mem_reverse] at he
  exact h e (List.mem_reverse.mp (evictRev_subset c.entries.reverse n c.cache_bytes e he))

theorem removeFirstKey_sublist (k : String) (es : List CacheEntry) :
    List.Sublist (removeFirstKey k es) es := by
  induction es with
  | nil => simp [removeFirstKey]
  | cons a rest ih =>
    rw [removeFirstKey]
    by_cases ha : a.key = k
    · rw [if_pos ha]; exact List.sublist_cons_self a rest
    · rw [if_neg ha]; exact List.Sublist.cons₂ a ih

theorem evictRev_sublist (es : List CacheEntry) (n : Nat) :
    ∀ b : Int, List.Sublist (evictRev es b n).1 es := by
  induction es with
  | nil => intro b; simp [evictRev]
  | cons e rest ih =>
    intro b
    rw [evictRev]
    by_cases hcond : b + (n : Int) > (MAX_CACHE_SIZE : Int)
    · rw [if_pos hcond]
      exact (ih _).trans (List.sublist_cons_self e rest)
    · rw [if_neg hcond]

theorem cache_evict_until_fit_sublist (c : Cache) (n : Nat) :
    List.Sublist (cache_evict_until_fit c n).entries c.entries := by
  rw [cache_evict_until_fit]
  simpa using (evictRev_sublist c.entries.reverse n c.cache_bytes).reverse

/-- Moving the first entry with key `k` to the front is a permutation. -/
theorem promote_perm (k : String) (es : List CacheEntry) (e : CacheEntry)
    (h : es.find? (fun x => x.key = k) = some e) :
    (e :: removeFirstKey k es).Perm es := by
  induction es with
  | nil => simp [List.find?] at h
  | cons a rest ih =>
    by_cases ha : a.key = k
    · rw [List.find?_cons_of_pos _ (by simpa using ha)] at h
      cases h
      rw [removeFirstKey, if_pos ha]
    · rw [List.find?_cons_of_neg _ (by simpa using ha)] at h
      rw [removeFirstKey, if_neg ha]
      exact (List.Perm.swap a e _).trans (List.Perm.cons a (ih h))

/-- Key uniqueness is preserved by every cache operation. -/
theorem applyOp_keys_nodup (c : Cache) (op : CacheOp)
    (hnd : (c.entries.map CacheEntry.key).Nodup) :
    ((applyOp c op).entries.map CacheEntry.key).Nodup := by
  cases op with
  | lookup k =>
    show (((cache_get_copy c k).2).entries.map CacheEntry.key).Nodup
    rw [cache_get_copy]
    cases hfind : c.entries.find? (fun e => e.key = k) with
    | some e =>
      simp only [hfind]
      exact (((promote_perm k c.entries e hfind).map CacheEntry.key).nodup_iff).mpr hnd
    | none => simp only [hfind]; exact hnd
  | insert k d s =>
    show ((cache_insert c k d s).entries.map CacheEntry.key).Nodup
    rw [cache_insert]
    by_cases hsz : s = 0 ∨ s > MAX_OBJECT_SIZE
    · rw [if_pos hsz]; exact hnd
    · rw [if_neg hsz]
      have hMm : MAX_OBJECT_SIZE < MAX_CACHE_SIZE := by decide
      rw [if_neg (by omega)]
      rw [List.map_cons, List.nodup_cons]
      have hstale_sub : List.Sublist (cache_remove_stale c k).entries c.entries := by
        rw [cache_remove_stale]
        cases hfind : c.entries.find? (fun e => e.key = k) with
        | some e => simp only [hfind]; exact removeFirstKey_sublist k c.entries
        | none => simp only [hfind]; exact List.Sublist.refl _
      have hsub : List.Sublist
          (cache_evict_until_fit (cache_remove_stale c k) s).entries c.entries :=
        (cache_evict_until_fit_sublist _ s).trans hstale_sub
      constructor
      · have hnok : NoKey k (cache_evict_until_fit (cache_remove_stale c k) s).entries :=
          cache_evict_until_fit_noKey _ _ _ (cache_remove_stale_noKey c k hnd)
        intro hmem
        rcases List.mem_map.mp hmem with ⟨e, he, hek⟩
        exact hnok e he hek
      · exact (hsub.map CacheEntry.key).nodup hnd

/-- Every reachable cache state has pairwise-distinct keys. -/
theorem runOps_keys_nodup (ops : List CacheOp) :
    ((runOps ops).entries.map CacheEntry.key).Nodup := by
  rw [runOps]
  have h : ∀ c : Cache, (c.entries.map CacheEntry.key).Nodup →
      ((ops.foldl applyOp c).entries.map CacheEntry.key).Nodup := by
    induction ops with
    | nil => intro c hc; exact hc
    | cons op rest ih =>
      intro c hc
      rw [List.foldl_cons]
      exact ih _ (applyOp_keys_nodup c op hc)
  exact h emptyCache (by simp [emptyCache])

/-- C4: overwrite semantics.  In any cache whose keys are pairwise distinct,
inserting payload `p1` under key `k` and then payload `p2` under the same
key (both with admissible sizes) leaves exactly one entry under `k`,
holding `p2`'s bytes and size. -/
theorem overwrite_semantics (c : Cache) (k : String) (p1 p2 : List Nat)
    (hnd : (c.entries.map CacheEntry.key).Nodup)
    (h01 : 0 < p1.length) (hm1 : p1.length ≤ MAX_OBJECT_SIZE)
    (h02 : 0 < p2.length) (hm2 : p2.length ≤ MAX_OBJECT_SIZE) :
    ((cache_insert (cache_insert c k p1 p1.length) k p2 p2.length).entries.filter
        (fun e => e.key = k)) = [⟨k, p2, p2.length⟩] := by
  rw [cache_insert_eq_cons c k p1 p1.length h01 hm1]
  set E1 := (cache_evict_until_fit (cache_remove_stale c k) p1.length).entries with hE1
  have hnoE1 : NoKey k E1 :=
    cache_evict_until_fit_noKey _ _ _ (cache_remove_stale_noKey c k hnd)
  rw [cache_insert_eq_cons _ k p2 p2.length h02 hm2]
  have hstale :
      cache_remove_stale ⟨⟨k, p1.take p1.length, p1.length⟩ :: E1,
        (cache_evict_until_fit (cache_remove_stale c k) p1.length).cache_bytes +
          (p1.length : Int)⟩ k =
      ⟨E1, (cache_evict_until_fit (cache_remove_stale c k) p1.length).cache_bytes⟩ := by
    rw [cache_remove_stale]
    rw [List.find?_cons_of_pos _ (by simp)]
    simp [removeFirstKey]
  rw [hstale]
  have hnoE2 : NoKey k (cache_evict_until_fit
      ⟨E1, (cache_evict_until_fit (cache_remove_stale c k) p1.length).cache_bytes⟩
      p2.length).entries :=
    cache_evict_until_fit_noKey _ _ _ hnoE1
  have hnil : ∀ es : List CacheEntry, NoKey k es →
      es.filter (fun e => e.key = k) = [] := by
    intro es hes
    rw [List.filter_eq_nil_iff]
    intro e he
    simpa using hes e he
  rw [List.filter_cons, hnil _ hnoE2]
  simp

/-- Witness for C4: overwriting key `"k"` in a one-entry cache leaves
exactly the second payload. -/
theorem overwrite_semantics_witness :
    ((cache_insert (cache_insert ⟨[⟨("a"), [5], 1⟩], 1⟩ ("k") [1] 1) ("k") [2, 3] 2).entries.filter
        (fun e => e.key = ("k"))) = [⟨("k"), [2, 3], 2⟩] :=
  overwrite_semantics ⟨[⟨("a"), [5], 1⟩], 1⟩ ("k") [1] [2, 3] (by decide)
    (by decide) (by decide) (by decide) (by decide)

/-- The eviction loop stops immediately when the payload already fits. -/
theorem evictRev_stop (es : List CacheEntry) (b : Int) (n : Nat)
    (h : ¬ b + (n : Int) > (MAX_CACHE_SIZE : Int)) : evictRev es b n = (es, b) := by
  cases es with
  | nil => rfl
  | cons e rest => rw [evictRev, if_neg h]

/-- C3: strict LRU promotion and eviction.  (i) A successful lookup moves
the found entry to the head; (ii) an admitted insert creates its entry at
the head; (iii) in a cache whose recency order ends with tail entry `A`
(least recently used), an insert of a fresh key that needs exactly one
eviction removes `A` and nothing else, keeping the rest of the order. -/
theorem lru_promotion_and_tail_eviction :
    (∀ (c : Cache) (k : String) (e : CacheEntry),
        c.entries.find? (fun x => x.key = k) = some e →
        ((cache_get_copy c k).2).entries = e :: removeFirstKey k c.entries) ∧
    (∀ (c : Cache) (k : String) (p : List Nat),
        0 < p.length → p.length ≤ MAX_OBJECT_SIZE →
        (cache_insert c k p p.length).entries.head? = some ⟨k, p, p.length⟩) ∧
    (∀ (es : List CacheEntry) (A : CacheEntry) (b : Int) (k : String) (p : List Nat),
        0 < p.length → p.length ≤ MAX_OBJECT_SIZE →
        NoKey k (es ++ [A]) →
        b + (p.length : Int) > (MAX_CACHE_SIZE : Int) →
        b - (A.size : Int) + (p.length : Int) ≤ (MAX_CACHE_SIZE : Int) →
        (cache_insert ⟨es ++ [A], b⟩ k p p.length).entries =
          ⟨k, p, p.length⟩ :: es) := by
  refine ⟨?_, ?_, ?_⟩
  · intro c k e hfind
    rw [cache_get_copy]
    simp only [hfind]
  · intro c k p h0 hm
    rw [cache_insert_eq_cons c k p p.length h0 hm]
    simp
  · intro es A b k p h0 hm hnk hgt hfit
    rw [cache_insert_eq_cons _ k p p.length h0 hm]
    have hstale : cache_remove_stale ⟨es ++ [A], b⟩ k = ⟨es ++ [A], b⟩ := by
      rw [cache_remove_stale]
      have hnone : (es ++ [A]).find? (fun e => e.key = k) = none :=
        List.find?_eq_none.mpr (fun x hx => by simpa using hnk x hx)
      simp only [hnone]
    rw [hstale]
    have hevict : cache_evict_until_fit ⟨es ++ [A], b⟩ p.length =
        ⟨es, b - (A.size : Int)⟩ := by
      rw [cache_evict_until_fit]
      have hrev : (es ++ [A]).reverse = A :: es.reverse := by simp
      simp only [hrev]
      rw [evictRev, if_pos hgt, evictRev_stop _ _ _ (by omega)]
      simp
    rw [hevict]
    simp

/-- Witness for C3: lookup of `"b"` promotes it; insert places at head; in
a cache ordered `[C, B, A]` (head first) needing one eviction, inserting a
fresh key `"D"` removes exactly the tail `A`. -/
theorem lru_promotion_and_tail_eviction_witness :
    ((cache_get_copy ⟨[⟨("a"), [1], 1⟩, ⟨("b"), [2], 1⟩], 2⟩ ("b")).2).entries =
        ⟨("b"), [2], 1⟩ :: removeFirstKey ("b") [⟨("a"), [1], 1⟩, ⟨("b"), [2], 1⟩] ∧
    (cache_insert ⟨[⟨("a"), [1], 1⟩], 1⟩ ("w") [7] 1).entries.head? =
        some ⟨("w"), [7], 1⟩ ∧
    (cache_insert ⟨[⟨("C"), [3], 1⟩, ⟨("B"), [2], 1⟩] ++ [⟨("A"), [9], 1048998⟩], 1049000⟩
          ("D") [7] 1).entries =
        ⟨("D"), [7], 1⟩ :: [⟨("C"), [3], 1⟩, ⟨("B"), [2], 1⟩] :=
  ⟨lru_promotion_and_tail_eviction.1 _ ("b") ⟨("b"), [2], 1⟩ (by decide),
    lru_promotion_and_tail_eviction.2.1 _ ("w") [7] (by decide) (by decide),
    lru_promotion_and_tail_eviction.2.2 [⟨("C"), [3], 1⟩, ⟨("B"), [2], 1⟩]
      ⟨("A"), [9], 1048998⟩ 1049000 ("D") [7] (by decide) (by decide)
      (by decide) (by decide) (by decide)⟩

/-- C6: the URI parsing table: absolute URI with scheme, host:port with
path, origin-relative target resolved through the Host header, and a bare
hostname with defaulted port and path. -/
theorem uri_parsing_table :
    resolve ("http://example.com/index.html") ("") =
        (("example.com"), ("80"), ("/index.html")) ∧
      resolve ("example.com:8080/a/b") ("") = (("example.com"), ("8080"), ("/a/b")) ∧
      resolve ("/relative") ("example.com:8080") =
        (("example.com"), ("8080"), ("/relative")) ∧
      resolve ("example.com") ("") = (("example.com"), ("80"), ("/")) := by
  decide

/-- C7 counterexample: on the target `a:b:c/p`, whose host:port segment
holds two colons, the code splits at the FIRST colon (`strchr`), yielding
hostname `a` and port `b:c` — not hostname `a:b` and port `c` as the
last-colon rule would give. -/
theorem last_colon_split_counterexample :
    parse_uri ("a:b:c/p") = (("a"), ("b:c"), ("/p")) ∧
      ¬ parse_uri ("a:b:c/p") = (("a:b"), ("c"), ("/p")) := by
  decide

/-- `strchr` splits at an element's first occurrence. -/
theorem splitAtCharFirst_append (c : Char) (l1 l2 : List Char) (h : c ∉ l1) :
    splitAtCharFirst c (l1 ++ c :: l2) = some (l1, l2) := by
  induction l1 with
  | nil => simp [splitAtCharFirst]
  | cons a tl ih =>
    have hac : a ≠ c := fun h2 => h (h2 ▸ List.mem_cons_self a tl)
    rw [List.cons_append, splitAtCharFirst, if_neg hac,
      ih (fun hm => h (List.mem_cons_of_mem a hm))]

/-- C7 amended: for an absolute-form target `host:port/path` (no scheme
prefix, not beginning with `/`), the resolver splits the host:port segment
at the FIRST colon: everything before the first colon is the hostname and
everything after it (which may itself contain colons) is the port. -/
theorem parse_uri_splits_on_first_colon (pre post rest : List Char)
    (hne : pre ≠ []) (hcol : ':' ∉ pre) (hsl : '/' ∉ pre) (hsp : '/' ∉ post)
    (hhttp : (lowerChars (("http://").toList)).isPrefixOf
        (lowerChars (pre ++ ':' :: post ++ '/' :: rest)) = false) :
    parse_uri_core (pre ++ ':' :: post ++ '/' :: rest) = (pre, post, '/' :: rest) := by
  rw [parse_uri_core]
  simp only [hhttp, Bool.false_eq_true, if_false]
  have hhead : ¬ (pre ++ ':' :: post ++ '/' :: rest).head? = some '/' := by
    cases pre with
    | nil => exact absurd rfl hne
    | cons a tl =>
      simp only [List.cons_append, List.head?_cons, Option.some.injEq]
      intro ha
      exact hsl (ha ▸ List.mem_cons_self a tl)
  rw [if_neg hhead]
  have hassoc : pre ++ ':' :: post ++ '/' :: rest =
      (pre ++ ':' :: post) ++ '/' :: rest := by
    simp [List.append_assoc]
  have hnos : '/' ∉ pre ++ ':' :: post := by
    intro hm
    rcases List.mem_append.mp hm with hm1 | hm2
    · exact hsl hm1
    · rcases List.mem_cons.mp hm2 with hc | hm3
      · exact absurd hc (by decide)
      · exact hsp hm3
  rw [hassoc, splitAtCharFirst_append _ _ _ hnos]
  simp only
  rw [splitAtCharFirst_append _ _ _ hcol]

/-- Witness for the amended C7 at the concrete target `a:b:c/p`. -/
theorem parse_uri_splits_on_first_colon_witness :
    parse_uri_core (("a").toList ++ ':' :: ("b:c").toList ++ '/' :: ("p").toList) =
      (("a").toList, ("b:c").toList, '/' :: ("p").toList) :=
  parse_uri_splits_on_first_colon (("a").toList) (("b:c").toList) (("p").toList)
    (by decide) (by decide) (by decide) (by decide) (by decide)

theorem headerLinesLen_cons (l : String) (rest : List String) :
    headerLinesLen (l :: rest) = l.length + headerLinesLen rest := by
  simp [headerLinesLen]

/-- Generalized header-filter correctness: starting from any accumulator
that leaves room for all remaining lines, the filter loop returns the
accumulator followed by exactly the unfiltered lines (in order) and the
captured Host value. -/
theorem read_request_headers_spec (lines : List String) :
    ∀ other host : String,
      other.length + headerLinesLen (lines.takeWhile (fun l => l ≠ ("\r\n"))) + 1 < 32768 →
      read_request_headers lines other host =
        (other ++ joinLines ((lines.takeWhile (fun l => l ≠ ("\r\n"))).filter
            (fun l => !filtered_header l)),
          capture_host lines host) := by
  induction lines with
  | nil =>
    intro other host hfit
    simp [read_request_headers, joinLines, capture_host]
  | cons l rest ih =>
    intro other host hfit
    by_cases hterm : l = ("\r\n")
    · subst hterm
      rw [read_request_headers, if_pos rfl, capture_host, if_pos rfl]
      simp [joinLines]
    · rw [List.takeWhile_cons, if_pos (by simpa using hterm)] at hfit ⊢
      rw [headerLinesLen_cons] at hfit
      rw [read_request_headers, if_neg hterm, capture_host, if_neg hterm]
      by_cases hhost : starts_with_icase l ("Host:") = true
      · rw [if_pos hhost, if_pos hhost]
        rw [List.filter_cons_of_neg (by simp [filtered_header, hhost])]
        exact ih other (l.drop 5) (by omega)
      · rw [if_neg hhost, if_neg hhost]
        by_cases hua : starts_with_icase l ("User-Agent:") = true
        · rw [if_pos hua]
          rw [List.filter_cons_of_neg (by simp [filtered_header, hua])]
          exact ih other host (by omega)
        · rw [if_neg hua]
          by_cases hconn : starts_with_icase l ("Connection:") = true
          · rw [if_pos hconn]
            rw [List.filter_cons_of_neg (by simp [filtered_header, hconn])]
            exact ih other host (by omega)
          · rw [if_neg hconn]
            by_cases hpc : starts_with_icase l ("Proxy-Connection:") = true
            · rw [if_pos hpc]
              rw [List.filter_cons_of_neg (by simp [filtered_header, hpc])]
              exact ih other host (by omega)
            · rw [if_neg hpc]
              rw [if_pos (by omega)]
              rw [List.filter_cons_of_pos
                (by simp [filtered_header, hhost, hua, hconn, hpc])]
              rw [joinLines]
              have hrec := ih (other ++ l) host
                (by rw [String.length_append]; omega)
              rw [hrec, ← String.append_assoc]

/-- C8: header filtering.  Whenever the unfiltered lines of the header
block fit in the forwarding buffer, the filter loop forwards exactly the
lines whose name is not one of Host, User-Agent, Connection or
Proxy-Connection (matched case-insensitively), unmodified and in their
original order, and separately captures the value following `Host:`. -/
theorem header_filtering (lines : List String)
    (hfit : headerLinesLen (lines.takeWhile (fun l => l ≠ ("\r\n"))) + 1 < 32768) :
    read_request_headers lines ("") ("") =
      (joinLines ((lines.takeWhile (fun l => l ≠ ("\r\n"))).filter
          (fun l => !filtered_header l)),
        capture_host lines ("")) := by
  have h := read_request_headers_spec lines ("") ("") (by simpa using hfit)
  simpa using h

/-- Witness for C8: the spec's example block — Host, User-Agent,
Connection, Proxy-Connection and Accept lines — forwards only the Accept
line, and the Host value is captured. -/
theorem header_filtering_witness :
    read_request_headers [("Host: example.com\r\n"), ("User-Agent: curl/8\r\n"),
        ("Connection: close\r\n"), ("Proxy-Connection: keep-alive\r\n"),
        ("Accept: text/html\r\n"), ("\r\n")] ("") ("") =
      (("Accept: text/html\r\n"), (" example.com\r\n")) :=
  (header_filtering [("Host: example.com\r\n"), ("User-Agent: curl/8\r\n"),
      ("Connection: close\r\n"), ("Proxy-Connection: keep-alive\r\n"),
      ("Accept: text/html\r\n"), ("\r\n")] (by decide)).trans (by decide)

/-- C9: silent rejection.  When the request line has fewer than three
whitespace-separated tokens, or its method is not GET (case-insensitive
comparison), the handler terminates with zero bytes written to the client,
without opening an upstream connection and without touching the cache. -/
theorem silent_rejection (cache : Cache) (line : String) (headers : List String)
    (connectOk : Bool) (chunks : List (List Nat))
    (h : (sscanf_tokens line).length < 3 ∨
      lowerChars ((sscanf_tokens line).headD ("")).toList ≠ lowerChars (("GET").toList)) :
    forward_request cache (some line) headers connectOk chunks =
      ⟨[], false, false, cache⟩ := by
  rw [forward_request]
  rcases htok : sscanf_tokens line with _ | ⟨m, _ | ⟨u, _ | ⟨v, rest⟩⟩⟩
  · rfl
  · rfl
  · rfl
  · rw [htok] at h
    rcases h with hlen | hm
    · simp only [List.length_cons] at hlen
      omega
    · simp only [List.headD_cons] at hm
      simp only [if_pos hm]

/-- Witness for C9: `POST / HTTP/1.0` is rejected with zero bytes written,
no upstream connection and an untouched cache. -/
theorem silent_rejection_witness :
    forward_request emptyCache (some ("POST / HTTP/1.0")) [] true [] =
      ⟨[], false, false, emptyCache⟩ :=
  silent_rejection emptyCache ("POST / HTTP/1.0") [] true [] (by decide)

end Proxy

